import Mathlib

set_option autoImplicit false

/-!
Shallow embedding of the core of gosftpsync, from the two Go source variants
(gosftpsync.go, which reads the archived set from a local directory and only
downloads, and the variant that archives on the remote server by renaming).
The embedded operations are listSFTPFiles with its in-place remove, the
getDiffFileNames diff, and the two downloadFiles process loops; remote and
local I/O failures are decided by an oracle of per-name failure flags, and the
filesystem is a triple of directory listings threaded through each operation.
-/

/-- A directory entry as the core sees it: an SFTP FileInfo reduced to the two
fields the code reads, Name() and IsDir(). -/
structure Entry where
  name : String
  isDir : Bool
deriving DecidableEq

/-- A Go slice of entries: the backing array together with the slice length,
so that the in-place append performed by remove can be modelled faithfully,
shifted tail included. The capacity is the backing list's length. -/
structure GoSlice where
  backing : List Entry
  len : Nat
deriving DecidableEq

/-- remove(files, i), which is append(files[:i], files[i+1:]...) on a slice
with spare capacity: the elements after index i are copied one slot to the
left inside the same backing array and the slice shrinks by one; the elements
at positions from len-1 on keep their old values. none models the runtime
panic when i+1 exceeds the slice length. -/
def goRemove (s : GoSlice) (i : Nat) : Option GoSlice :=
  if i + 1 ≤ s.len then
    some
      ⟨s.backing.take i ++ (s.backing.drop (i + 1)).take (s.len - (i + 1))
          ++ s.backing.drop (s.len - 1),
        s.len - 1⟩
  else
    none

/-- The for-range loop of listSFTPFiles. Go's range clause captures the slice
header once, so the loop visits indices 0 .. n-1 of the shared backing array
for the original length n, while the loop body keeps reassigning the shrinking
slice; fuel counts the remaining iterations. -/
def listLoop : GoSlice → Nat → Nat → Option GoSlice
  | s, _, 0 => some s
  | s, i, fuel + 1 =>
    let file := s.backing.getD i ⟨"", false⟩
    if file.isDir then
      match goRemove s i with
      | none => none
      | some s2 => listLoop s2 (i + 1) fuel
    else
      listLoop s (i + 1) fuel

/-- listSFTPFiles after a successful ReadDir: drop directory entries by
removing them from the slice while iterating over it, and return the slice
left when the loop ends. none models the panic that remove can raise. -/
def listSFTPFiles (files : List Entry) : Option (List Entry) :=
  (listLoop ⟨files, files.length⟩ 0 files.length).map fun s => s.backing.take s.len

/-- The second loop of getDiffFileNames: walk the pending entries in order and
append each name that is not in the archived-name set to the diff. -/
def diffLoop (archived : List String) : List Entry → List String → List String
  | [], diff => diff
  | nf :: rest, diff =>
    if archived.contains nf.name then diffLoop archived rest diff
    else diffLoop archived rest (diff ++ [nf.name])

/-- getDiffFileNames: build the set of archived names, then emit, in order,
the names of the pending entries that are not members of it. -/
def getDiffFileNames (SFTPFiles archivedFiles : List Entry) : List String :=
  diffLoop (archivedFiles.map Entry.name) SFTPFiles []

/-- The failure oracle: which primitive remote/local operations fail for a
given file name during one run. -/
structure Eff where
  openFails : String → Bool
  createFails : String → Bool
  copyFails : String → Bool
  renameFails : String → Bool

/-- The errors the process loop can surface, split by the helper that built
them: downloadErr for the remote-open, local-create and copy failures wrapped
by the download helper, archiveErr for the rename failure wrapped by the
archive helper. -/
inductive RunError where
  | downloadErr : String → RunError
  | archiveErr : String → RunError
deriving DecidableEq

/-- The filesystem state the core mutates: the remote pending (read) listing,
the remote archive listing, and the set of locally created file names. -/
structure FS where
  readDir : List Entry
  archiveDir : List Entry
  localDir : List String
deriving DecidableEq

/-- Observable events of the process loop: a download that ran to completion,
and a rename call made against the remote server. -/
inductive Event where
  | download : String → Event
  | rename : String → Event
deriving DecidableEq

namespace Remote

/-- downloadRemoteFile of the remote-archive variant: open the remote file,
create the local file, copy; each failure is wrapped in an error value that is
returned to the caller. The local file exists (possibly partial) as soon as
create succeeds. -/
def downloadRemoteFile (eff : Eff) (fileName : String) (fs : FS) :
    Option RunError × FS :=
  if eff.openFails fileName then
    (some (RunError.downloadErr ("Unable to open remote file")), fs)
  else if eff.createFails fileName then
    (some (RunError.downloadErr ("Unable to open local file")), fs)
  else
    let fs1 : FS := { fs with localDir := fileName :: fs.localDir }
    if eff.copyFails fileName then
      (some (RunError.downloadErr ("Unable to copy remote file")), fs1)
    else
      (none, fs1)

/-- archiveRemoteFile: rename the pending remote file to the archive path; on
success the entries bearing that name move from the read listing to the end of
the archive listing. -/
def archiveRemoteFile (eff : Eff) (fileName : String) (fs : FS) :
    Option RunError × FS :=
  if eff.renameFails fileName then
    (some (RunError.archiveErr ("Unable to move remote file")), fs)
  else
    (none,
      { fs with
        readDir := fs.readDir.filter fun e => !(e.name == fileName)
        archiveDir := fs.archiveDir ++ fs.readDir.filter fun e => e.name == fileName })

/-- downloadFiles of the remote-archive variant: per name, download then
archive, returning on the first error; also returns the trace of completed
downloads and rename calls, in order. -/
def downloadFiles (eff : Eff) : List String → FS → Option RunError × FS × List Event
  | [], fs => (none, fs, [])
  | fileName :: rest, fs =>
    let d := downloadRemoteFile eff fileName fs
    match d.1 with
    | some e => (some e, d.2, [])
    | none =>
      let a := archiveRemoteFile eff fileName d.2
      match a.1 with
      | some e => (some e, a.2, [Event.download fileName, Event.rename fileName])
      | none =>
        let r := downloadFiles eff rest a.2
        (r.1, r.2.1, Event.download fileName :: Event.rename fileName :: r.2.2)

/-- One whole run of the remote-archive variant: list both remote directories,
diff, process. A listing panic aborts the run before any mutation; a process
error leaves the state the loop had built up to that point. -/
def runResult (eff : Eff) (fs : FS) : FS :=
  match listSFTPFiles fs.readDir, listSFTPFiles fs.archiveDir with
  | some p, some a => (downloadFiles eff (getDiffFileNames p a) fs).2.1
  | _, _ => fs

/-- States reachable from a starting state by any sequence of runs, each with
its own failure oracle, interleaved with new files arriving in the remote
pending directory. -/
inductive Reachable : FS → FS → Prop where
  | refl (fs : FS) : Reachable fs fs
  | run (eff : Eff) {fs fs2 : FS} : Reachable fs fs2 → Reachable fs (runResult eff fs2)
  | newFiles (more : List Entry) {fs fs2 : FS} :
      Reachable fs fs2 → Reachable fs { fs2 with readDir := fs2.readDir ++ more }

end Remote

/-- Outcome of a helper in the local-archive variant, whose download helper
logs and exits the whole process on failure: either a value is returned to the
caller, or the process terminates inside the helper. -/
inductive DLOutcome where
  | returned : Option RunError → FS → DLOutcome
  | fatalExit : String → FS → DLOutcome
deriving DecidableEq

/-- The filesystem state an outcome leaves behind, whether the helper returned
or the process exited. -/
def DLOutcome.state : DLOutcome → FS
  | DLOutcome.returned _ fs => fs
  | DLOutcome.fatalExit _ fs => fs

namespace LocalArch

/-- downloadFile of the local-archive variant (gosftpsync.go): open remote,
create local, copy — but each failure branch calls iLog.Fatalf, terminating
the process inside the helper, so the error value after it is never returned. -/
def downloadFile (eff : Eff) (fileName : String) (fs : FS) : DLOutcome :=
  if eff.openFails fileName then
    DLOutcome.fatalExit ("Unable to open remote file") fs
  else if eff.createFails fileName then
    DLOutcome.fatalExit ("Unable to open local file") fs
  else
    let fs1 : FS := { fs with localDir := fileName :: fs.localDir }
    if eff.copyFails fileName then
      DLOutcome.fatalExit ("Unable to copy remote file") fs1
    else
      DLOutcome.returned none fs1

/-- downloadFiles of the local-archive variant: download each name in turn; no
archive step exists in this variant. The error-return branch of the loop is
kept even though downloadFile exits the process instead of reaching it. -/
def downloadFiles (eff : Eff) : List String → FS → DLOutcome
  | [], fs => DLOutcome.returned none fs
  | fileName :: rest, fs =>
    match downloadFile eff fileName fs with
    | DLOutcome.fatalExit msg fs1 => DLOutcome.fatalExit msg fs1
    | DLOutcome.returned (some e) fs1 => DLOutcome.returned (some e) fs1
    | DLOutcome.returned none fs1 => downloadFiles eff rest fs1

end LocalArch

/-- A trace in which every rename call is preceded by a completed download of
the same name. -/
def renameAfterDownload (tr : List Event) : Prop :=
  ∀ (l1 l2 : List Event) (n : String),
    tr = l1 ++ Event.rename n :: l2 → Event.download n ∈ l1

/-- All four primitive operations succeed for this name under this oracle. -/
def okName (eff : Eff) (n : String) : Prop :=
  eff.openFails n = false ∧ eff.createFails n = false ∧ eff.copyFails n = false
    ∧ eff.renameFails n = false

instance (eff : Eff) (n : String) : Decidable (okName eff n) :=
  inferInstanceAs (Decidable (eff.openFails n = false ∧ eff.createFails n = false
    ∧ eff.copyFails n = false ∧ eff.renameFails n = false))

/-- The state change of one fully successful download-then-archive step. -/
def stepOk (n : String) (fs : FS) : FS :=
  { readDir := fs.readDir.filter fun e => !(e.name == n)
    archiveDir := fs.archiveDir ++ fs.readDir.filter fun e => e.name == n
    localDir := n :: fs.localDir }

/-- The state after fully processing a list of names in order. -/
def okState : List String → FS → FS
  | [], fs => fs
  | n :: rest, fs => okState rest (stepOk n fs)

/-- The event trace of fully processing a list of names in order. -/
def okTrace : List String → List Event
  | [] => []
  | n :: rest => Event.download n :: Event.rename n :: okTrace rest

/-- The error value that the first failing step of one name's processing
produces: the download helper's open, create and copy failures come first, in
the code's check order, then the archive helper's rename failure; none when
every step succeeds. -/
def stepError (eff : Eff) (n : String) : Option RunError :=
  if eff.openFails n then some (RunError.downloadErr ("Unable to open remote file"))
  else if eff.createFails n then some (RunError.downloadErr ("Unable to open local file"))
  else if eff.copyFails n then some (RunError.downloadErr ("Unable to copy remote file"))
  else if eff.renameFails n then some (RunError.archiveErr ("Unable to move remote file"))
  else none

/-- Oracle under which every operation succeeds except the rename of b.csv. -/
def effArchiveFailB : Eff :=
  { openFails := fun _ => false
    createFails := fun _ => false
    copyFails := fun _ => false
    renameFails := fun n => n == "b.csv" }

/-- A pending directory holding a.csv, b.csv and c.csv, with empty archive. -/
def fsABC : FS :=
  { readDir := [⟨"a.csv", false⟩, ⟨"b.csv", false⟩, ⟨"c.csv", false⟩]
    archiveDir := []
    localDir := [] }

/-- Oracle under which every remote open fails and everything else succeeds. -/
def effOpenFail : Eff :=
  { openFails := fun _ => true
    createFails := fun _ => false
    copyFails := fun _ => false
    renameFails := fun _ => false }

/-- A pending directory holding the single file a.csv. -/
def fsOne : FS :=
  { readDir := [⟨"a.csv", false⟩], archiveDir := [], localDir := [] }

theorem diffLoop_eq (archived : List String) (pending : List Entry) (acc : List String) :
    diffLoop archived pending acc
      = acc ++ (pending.filter fun nf => !(archived.contains nf.name)).map Entry.name := by
  induction pending generalizing acc with
  | nil => simp [diffLoop]
  | cons nf rest ih =>
    by_cases h : nf.name ∈ archived
    · simp [diffLoop, h, ih, List.filter_cons]
    · simp [diffLoop, h, ih, List.filter_cons]

theorem getDiff_eq (pending archived : List Entry) :
    getDiffFileNames pending archived
      = (pending.filter fun nf => !((archived.map Entry.name).contains nf.name)).map Entry.name := by
  simp [getDiffFileNames, diffLoop_eq]

theorem mem_getDiff (pending archived : List Entry) (n : String) :
    n ∈ getDiffFileNames pending archived
      ↔ (∃ e ∈ pending, e.name = n) ∧ n ∉ archived.map Entry.name := by
  rw [getDiff_eq]
  simp only [List.mem_map, List.mem_filter, Bool.not_eq_true']
  constructor
  · rintro ⟨e, ⟨he, hq⟩, rfl⟩
    refine ⟨⟨e, he, rfl⟩, ?_⟩
    simpa using hq
  · rintro ⟨⟨e, he, rfl⟩, hn⟩
    exact ⟨e, ⟨he, by simpa using hn⟩, rfl⟩

/-- Claim C2: for every pending sequence and archived collection,
getDiffFileNames returns exactly the names of the pending entries whose name
equals no archived entry's name under exact string equality, preserving the
relative order of the pending sequence. -/
theorem getDiffFileNames_exact_filter :
    ∀ (pending archived : List Entry),
      getDiffFileNames pending archived
        = (pending.filter fun nf => decide (¬ ∃ af ∈ archived, af.name = nf.name)).map
            Entry.name := by
  intro pending archived
  rw [getDiff_eq]
  congr 1
  apply List.filter_congr
  intro e _
  by_cases h : ∃ af ∈ archived, af.name = e.name
  · have h2 : e.name ∈ archived.map Entry.name :=
      List.mem_map.mpr (by rcases h with ⟨af, haf, he⟩; exact ⟨af, haf, he⟩)
    simp [h, h2]
  · have h2 : e.name ∉ archived.map Entry.name := by
      intro hm
      rcases List.mem_map.mp hm with ⟨af, haf, he⟩
      exact h ⟨af, haf, he⟩
    simp [h, h2]

/-- Claim C7: every pending name is in the diff or already archived, and
rerunning the diff against an archive extended with exactly the diffed names
yields the empty sequence. -/
theorem diff_convergence :
    ∀ (pending archived : List Entry),
      (∀ n ∈ pending.map Entry.name,
          n ∈ getDiffFileNames pending archived ∨ n ∈ archived.map Entry.name)
      ∧ ∀ archived2 : List Entry,
          (∀ s : String, s ∈ archived2.map Entry.name ↔
            (s ∈ archived.map Entry.name ∨ s ∈ getDiffFileNames pending archived)) →
          getDiffFileNames pending archived2 = [] := by
  intro pending archived
  have base : ∀ n ∈ pending.map Entry.name,
      n ∈ getDiffFileNames pending archived ∨ n ∈ archived.map Entry.name := by
    intro n hn
    rcases List.mem_map.mp hn with ⟨e, he, rfl⟩
    by_cases h : e.name ∈ archived.map Entry.name
    · exact Or.inr h
    · exact Or.inl ((mem_getDiff pending archived e.name).mpr ⟨⟨e, he, rfl⟩, h⟩)
  refine ⟨base, ?_⟩
  intro archived2 hiff
  rw [getDiff_eq]
  have hfil : pending.filter
      (fun nf => !((archived2.map Entry.name).contains nf.name)) = [] := by
    rw [List.filter_eq_nil_iff]
    intro e he
    simp only [Bool.not_eq_true', Bool.not_eq_false]
    have : e.name ∈ archived2.map Entry.name := by
      rw [hiff]
      rcases base e.name (List.mem_map_of_mem Entry.name he) with h | h
      · exact Or.inr h
      · exact Or.inl h
    simpa using this
  rw [hfil]
  rfl

/-- Claim C8: the diff is deterministic — identical inputs yield identical
output sequences. -/
theorem diff_deterministic :
    ∀ (p a p2 a2 : List Entry), p = p2 → a = a2 →
      getDiffFileNames p a = getDiffFileNames p2 a2 := by
  intro p a p2 a2 h1 h2
  rw [h1, h2]

theorem diff_deterministic_witness :
    getDiffFileNames [⟨"a.csv", false⟩] [⟨"x.csv", false⟩]
      = getDiffFileNames [⟨"a.csv", false⟩] [⟨"x.csv", false⟩] :=
  diff_deterministic _ _ _ _ rfl rfl

/-- Claim C9: the diff output has no duplicate names when the pending names
are pairwise distinct, and it is empty whenever every pending name is already
archived, in particular for an empty pending sequence. -/
theorem diff_nodup_and_empty :
    ∀ (pending archived : List Entry),
      ((pending.map Entry.name).Nodup → (getDiffFileNames pending archived).Nodup)
      ∧ ((∀ e ∈ pending, e.name ∈ archived.map Entry.name) →
          getDiffFileNames pending archived = [])
      ∧ getDiffFileNames [] archived = [] := by
  intro pending archived
  refine ⟨?_, ?_, rfl⟩
  · intro hnd
    rw [getDiff_eq]
    exact hnd.sublist ((List.filter_sublist pending).map Entry.name)
  · intro hall
    rw [getDiff_eq]
    have hfil : pending.filter
        (fun nf => !((archived.map Entry.name).contains nf.name)) = [] := by
      rw [List.filter_eq_nil_iff]
      intro e he
      simp only [Bool.not_eq_true', Bool.not_eq_false]
      simpa using hall e he
    rw [hfil]
    rfl

theorem diff_nodup_and_empty_witness :
    (getDiffFileNames [⟨"a.csv", false⟩, ⟨"b.csv", false⟩] [⟨"a.csv", false⟩]).Nodup
      ∧ getDiffFileNames [⟨"a.csv", false⟩] [⟨"a.csv", false⟩, ⟨"b.csv", false⟩] = [] :=
  ⟨(diff_nodup_and_empty [⟨"a.csv", false⟩, ⟨"b.csv", false⟩] [⟨"a.csv", false⟩]).1
      (by decide),
    (diff_nodup_and_empty [⟨"a.csv", false⟩] [⟨"a.csv", false⟩, ⟨"b.csv", false⟩]).2.1
      (by decide)⟩

theorem diff_convergence_witness :
    ("b.csv" ∈ getDiffFileNames [⟨"a.csv", false⟩, ⟨"b.csv", false⟩] [⟨"a.csv", false⟩]
        ∨ "b.csv" ∈ ([⟨"a.csv", false⟩] : List Entry).map Entry.name)
      ∧ getDiffFileNames [⟨"a.csv", false⟩, ⟨"b.csv", false⟩]
          [⟨"a.csv", false⟩, ⟨"b.csv", false⟩] = [] := by
  refine ⟨(diff_convergence [⟨"a.csv", false⟩, ⟨"b.csv", false⟩] [⟨"a.csv", false⟩]).1
      ("b.csv") (by decide),
    (diff_convergence [⟨"a.csv", false⟩, ⟨"b.csv", false⟩] [⟨"a.csv", false⟩]).2
      [⟨"a.csv", false⟩, ⟨"b.csv", false⟩] ?_⟩
  intro s
  have hd : getDiffFileNames [⟨"a.csv", false⟩, ⟨"b.csv", false⟩] [⟨"a.csv", false⟩]
      = ["b.csv"] := by decide
  rw [hd]
  simp

namespace Remote

theorem downloadFiles_nil (eff : Eff) (fs : FS) :
    downloadFiles eff [] fs = (none, fs, []) := rfl

theorem downloadRemoteFile_readDir (eff : Eff) (n : String) (fs : FS) :
    (downloadRemoteFile eff n fs).2.readDir = fs.readDir := by
  by_cases ho : eff.openFails n = true <;> by_cases hc : eff.createFails n = true <;>
    by_cases hy : eff.copyFails n = true <;> simp [downloadRemoteFile, ho, hc, hy]

theorem downloadRemoteFile_archiveDir (eff : Eff) (n : String) (fs : FS) :
    (downloadRemoteFile eff n fs).2.archiveDir = fs.archiveDir := by
  by_cases ho : eff.openFails n = true <;> by_cases hc : eff.createFails n = true <;>
    by_cases hy : eff.copyFails n = true <;> simp [downloadRemoteFile, ho, hc, hy]

theorem downloadRemoteFile_local_mono (eff : Eff) (n : String) (fs : FS) (x : String)
    (hx : x ∈ fs.localDir) : x ∈ (downloadRemoteFile eff n fs).2.localDir := by
  by_cases ho : eff.openFails n = true <;> by_cases hc : eff.createFails n = true <;>
    by_cases hy : eff.copyFails n = true <;>
      simp [downloadRemoteFile, ho, hc, hy, hx, List.mem_cons]

theorem downloadRemoteFile_of_ok (eff : Eff) (n : String) (fs : FS)
    (ho : eff.openFails n = false) (hc : eff.createFails n = false)
    (hy : eff.copyFails n = false) :
    downloadRemoteFile eff n fs = (none, { fs with localDir := n :: fs.localDir }) := by
  simp [downloadRemoteFile, ho, hc, hy]

theorem downloadRemoteFile_ok_flags {eff : Eff} {n : String} {fs fs1 : FS}
    (h : downloadRemoteFile eff n fs = (none, fs1)) :
    eff.openFails n = false ∧ eff.createFails n = false ∧ eff.copyFails n = false
      ∧ fs1 = { fs with localDir := n :: fs.localDir } := by
  by_cases ho : eff.openFails n = true <;> by_cases hc : eff.createFails n = true <;>
    by_cases hy : eff.copyFails n = true <;>
      simp_all [downloadRemoteFile]

theorem archiveRemoteFile_of_ok (eff : Eff) (n : String) (fs : FS)
    (hr : eff.renameFails n = false) :
    archiveRemoteFile eff n fs
      = (none,
          { fs with
            readDir := fs.readDir.filter fun e => !(e.name == n)
            archiveDir := fs.archiveDir ++ fs.readDir.filter fun e => e.name == n }) := by
  simp [archiveRemoteFile, hr]

theorem archiveRemoteFile_of_fail (eff : Eff) (n : String) (fs : FS)
    (hr : eff.renameFails n = true) :
    archiveRemoteFile eff n fs
      = (some (RunError.archiveErr ("Unable to move remote file")), fs) := by
  simp [archiveRemoteFile, hr]

theorem archiveRemoteFile_localDir (eff : Eff) (n : String) (fs : FS) :
    (archiveRemoteFile eff n fs).2.localDir = fs.localDir := by
  by_cases hr : eff.renameFails n = true <;> simp [archiveRemoteFile, hr]

theorem archiveRemoteFile_archive_mono (eff : Eff) (n : String) (fs : FS) (e : Entry)
    (he : e ∈ fs.archiveDir) : e ∈ (archiveRemoteFile eff n fs).2.archiveDir := by
  by_cases hr : eff.renameFails n = true <;>
    simp [archiveRemoteFile, hr, he, List.mem_append]

theorem downloadFiles_cons_dfail {eff : Eff} {n : String} {fs fs1 : FS} {e : RunError}
    (h : downloadRemoteFile eff n fs = (some e, fs1)) (rest : List String) :
    downloadFiles eff (n :: rest) fs = (some e, fs1, []) := by
  simp [downloadFiles, h]

theorem downloadFiles_cons_afail {eff : Eff} {n : String} {fs fs1 fs2 : FS} {e : RunError}
    (hd : downloadRemoteFile eff n fs = (none, fs1))
    (ha : archiveRemoteFile eff n fs1 = (some e, fs2)) (rest : List String) :
    downloadFiles eff (n :: rest) fs
      = (some e, fs2, [Event.download n, Event.rename n]) := by
  simp [downloadFiles, hd, ha]

theorem downloadFiles_cons_ok {eff : Eff} {n : String} {fs fs1 fs2 : FS}
    (hd : downloadRemoteFile eff n fs = (none, fs1))
    (ha : archiveRemoteFile eff n fs1 = (none, fs2)) (rest : List String) :
    downloadFiles eff (n :: rest) fs
      = ((downloadFiles eff rest fs2).1, (downloadFiles eff rest fs2).2.1,
          Event.download n :: Event.rename n :: (downloadFiles eff rest fs2).2.2) := by
  simp [downloadFiles, hd, ha]

theorem downloadFiles_archive_mono (eff : Eff) (files : List String) :
    ∀ (fs : FS) (e : Entry), e ∈ fs.archiveDir →
      e ∈ (downloadFiles eff files fs).2.1.archiveDir := by
  induction files with
  | nil => intro fs e he; simpa [downloadFiles_nil] using he
  | cons n rest ih =>
    intro fs e he
    rcases hdr : downloadRemoteFile eff n fs with ⟨r, fs1⟩
    have h1 : e ∈ fs1.archiveDir := by
      have h := downloadRemoteFile_archiveDir eff n fs
      rw [hdr] at h
      rw [show fs1.archiveDir = fs.archiveDir from h]
      exact he
    cases r with
    | some er => simp [downloadFiles_cons_dfail hdr rest, h1]
    | none =>
      rcases har : archiveRemoteFile eff n fs1 with ⟨ra, fs2⟩
      have h2 : e ∈ fs2.archiveDir := by
        have := archiveRemoteFile_archive_mono eff n fs1 e h1
        rwa [har] at this
      cases ra with
      | some er => simp [downloadFiles_cons_afail hdr har rest, h2]
      | none =>
        rw [downloadFiles_cons_ok hdr har rest]
        exact ih fs2 e h2

theorem downloadFiles_local_mono (eff : Eff) (files : List String) :
    ∀ (fs : FS) (x : String), x ∈ fs.localDir →
      x ∈ (downloadFiles eff files fs).2.1.localDir := by
  induction files with
  | nil => intro fs x hx; simpa [downloadFiles_nil] using hx
  | cons n rest ih =>
    intro fs x hx
    rcases hdr : downloadRemoteFile eff n fs with ⟨r, fs1⟩
    have h1 : x ∈ fs1.localDir := by
      have := downloadRemoteFile_local_mono eff n fs x hx
      rwa [hdr] at this
    cases r with
    | some er => simp [downloadFiles_cons_dfail hdr rest, h1]
    | none =>
      rcases har : archiveRemoteFile eff n fs1 with ⟨ra, fs2⟩
      have h2 : x ∈ fs2.localDir := by
        have h := archiveRemoteFile_localDir eff n fs1
        rw [har] at h
        rw [show fs2.localDir = fs1.localDir from h]
        exact h1
      cases ra with
      | some er => simp [downloadFiles_cons_afail hdr har rest, h2]
      | none =>
        rw [downloadFiles_cons_ok hdr har rest]
        exact ih fs2 x h2

end Remote

theorem renameAfterDownload_nil : renameAfterDownload [] := by
  intro l1 l2 n h
  exact absurd h (by simp)

theorem renameAfterDownload_block (n : String) (tr : List Event)
    (h : renameAfterDownload tr) :
    renameAfterDownload (Event.download n :: Event.rename n :: tr) := by
  intro l1 l2 m hl
  cases l1 with
  | nil => simp at hl
  | cons a l1b =>
    rcases (by simpa using hl :
        Event.download n = a ∧ Event.rename n :: tr = l1b ++ Event.rename m :: l2)
      with ⟨ha, hl2⟩
    cases ha
    cases l1b with
    | nil =>
      rcases (by simpa using hl2 : Event.rename n = Event.rename m ∧ tr = l2) with ⟨he, _⟩
      cases he
      simp
    | cons b l1c =>
      rcases (by simpa using hl2 :
          Event.rename n = b ∧ tr = l1c ++ Event.rename m :: l2) with ⟨hb, hl3⟩
      cases hb
      have := h l1c l2 m hl3
      simp [this]

namespace Remote

theorem downloadFiles_trace_rad (eff : Eff) (files : List String) :
    ∀ fs : FS, renameAfterDownload (downloadFiles eff files fs).2.2 := by
  induction files with
  | nil => intro fs; simpa [downloadFiles_nil] using renameAfterDownload_nil
  | cons n rest ih =>
    intro fs
    rcases hdr : downloadRemoteFile eff n fs with ⟨r, fs1⟩
    cases r with
    | some er => simpa [downloadFiles_cons_dfail hdr rest] using renameAfterDownload_nil
    | none =>
      rcases har : archiveRemoteFile eff n fs1 with ⟨ra, fs2⟩
      cases ra with
      | some er =>
        rw [downloadFiles_cons_afail hdr har rest]
        exact renameAfterDownload_block n [] renameAfterDownload_nil
      | none =>
        rw [downloadFiles_cons_ok hdr har rest]
        exact renameAfterDownload_block n _ (ih fs2)

theorem archiveRemoteFile_some_flags {eff : Eff} {n : String} {fs fs2 : FS}
    {e : RunError} (h : archiveRemoteFile eff n fs = (some e, fs2)) :
    eff.renameFails n = true ∧ fs2 = fs
      ∧ e = RunError.archiveErr ("Unable to move remote file") := by
  by_cases hr : eff.renameFails n = true <;> simp_all [archiveRemoteFile]

theorem archiveRemoteFile_none_flags {eff : Eff} {n : String} {fs fs2 : FS}
    (h : archiveRemoteFile eff n fs = (none, fs2)) :
    eff.renameFails n = false
      ∧ fs2 = { fs with
          readDir := fs.readDir.filter fun e => !(e.name == n)
          archiveDir := fs.archiveDir ++ fs.readDir.filter fun e => e.name == n } := by
  by_cases hr : eff.renameFails n = true <;> simp_all [archiveRemoteFile]

theorem downloadFiles_rename_mem_flags (eff : Eff) (files : List String) :
    ∀ (fs : FS) (n : String), Event.rename n ∈ (downloadFiles eff files fs).2.2 →
      eff.openFails n = false ∧ eff.createFails n = false ∧ eff.copyFails n = false := by
  induction files with
  | nil => intro fs n h; simp [downloadFiles_nil] at h
  | cons m rest ih =>
    intro fs n h
    rcases hdr : downloadRemoteFile eff m fs with ⟨r, fs1⟩
    cases r with
    | some er => rw [downloadFiles_cons_dfail hdr rest] at h; simp at h
    | none =>
      have hflags := downloadRemoteFile_ok_flags hdr
      rcases har : archiveRemoteFile eff m fs1 with ⟨ra, fs2⟩
      cases ra with
      | some er =>
        rw [downloadFiles_cons_afail hdr har rest] at h
        rcases (by simpa using h : n = m) with rfl
        exact ⟨hflags.1, hflags.2.1, hflags.2.2.1⟩
      | none =>
        rw [downloadFiles_cons_ok hdr har rest] at h
        rcases (by simpa using h :
            Event.rename n = Event.download m ∨ n = m
              ∨ Event.rename n ∈ (downloadFiles eff rest fs2).2.2) with h1 | h1 | h1
        · exact absurd h1 (by simp)
        · cases h1; exact ⟨hflags.1, hflags.2.1, hflags.2.2.1⟩
        · exact ih fs2 n h1

theorem downloadFiles_rename_mem_local (eff : Eff) (files : List String) :
    ∀ (fs : FS) (n : String), Event.rename n ∈ (downloadFiles eff files fs).2.2 →
      n ∈ (downloadFiles eff files fs).2.1.localDir := by
  induction files with
  | nil => intro fs n h; simp [downloadFiles_nil] at h
  | cons m rest ih =>
    intro fs n h
    rcases hdr : downloadRemoteFile eff m fs with ⟨r, fs1⟩
    cases r with
    | some er => rw [downloadFiles_cons_dfail hdr rest] at h; simp at h
    | none =>
      have hfs1 : fs1 = { fs with localDir := m :: fs.localDir } :=
        (downloadRemoteFile_ok_flags hdr).2.2.2
      rcases har : archiveRemoteFile eff m fs1 with ⟨ra, fs2⟩
      cases ra with
      | some er =>
        rw [downloadFiles_cons_afail hdr har rest] at h ⊢
        rcases (by simpa using h : n = m) with rfl
        have h2 : fs2 = fs1 := (archiveRemoteFile_some_flags har).2.1
        simp [h2, hfs1]
      | none =>
        rw [downloadFiles_cons_ok hdr har rest] at h ⊢
        have hfs2 := (archiveRemoteFile_none_flags har).2
        rcases (by simpa using h :
            Event.rename n = Event.download m ∨ n = m
              ∨ Event.rename n ∈ (downloadFiles eff rest fs2).2.2) with h1 | h1 | h1
        · exact absurd h1 (by simp)
        · cases h1
          apply downloadFiles_local_mono
          rw [hfs2, hfs1]
          simp
        · exact ih fs2 n h1

end Remote

/-- Claim C4: in the process loop, every rename call in the event trace is
preceded by a completed download of the same name, a renamed name has its
local copy in the final state, and a name whose download fails is never
renamed. -/
theorem rename_only_after_download :
    ∀ (eff : Eff) (files : List String) (fs : FS),
      renameAfterDownload (Remote.downloadFiles eff files fs).2.2
      ∧ (∀ n : String, Event.rename n ∈ (Remote.downloadFiles eff files fs).2.2 →
          n ∈ (Remote.downloadFiles eff files fs).2.1.localDir)
      ∧ ∀ n : String,
          (eff.openFails n = true ∨ eff.createFails n = true ∨ eff.copyFails n = true) →
          Event.rename n ∉ (Remote.downloadFiles eff files fs).2.2 := by
  intro eff files fs
  refine ⟨Remote.downloadFiles_trace_rad eff files fs,
    Remote.downloadFiles_rename_mem_local eff files fs, ?_⟩
  intro n hbad hmem
  have hok := Remote.downloadFiles_rename_mem_flags eff files fs n hmem
  rcases hbad with hb | hb | hb
  · rw [hok.1] at hb; exact absurd hb (by simp)
  · rw [hok.2.1] at hb; exact absurd hb (by simp)
  · rw [hok.2.2] at hb; exact absurd hb (by simp)

theorem rename_only_after_download_witness :
    Event.rename ("a.csv") ∉ (Remote.downloadFiles effOpenFail [("a.csv")] fsOne).2.2 :=
  (rename_only_after_download effOpenFail [("a.csv")] fsOne).2.2 ("a.csv") (Or.inl rfl)

theorem goRemove_slice {s : GoSlice} {i : Nat} {s2 : GoSlice}
    (hlen : s.len ≤ s.backing.length) (h : goRemove s i = some s2) :
    i + 1 ≤ s.len ∧ s2.len ≤ s2.backing.length ∧
      s2.backing.take s2.len
        = (s.backing.take s.len).take i ++ (s.backing.take s.len).drop (i + 1) := by
  by_cases hc : i + 1 ≤ s.len
  · simp only [goRemove, if_pos hc] at h
    cases h
    have hlt1 : (s.backing.take i).length = i := by
      simp only [List.length_take]
      omega
    have hlt2 : ((s.backing.drop (i + 1)).take (s.len - (i + 1))).length
        = s.len - (i + 1) := by
      simp only [List.length_take, List.length_drop]
      omega
    refine ⟨hc, ?_, ?_⟩
    · simp only [List.length_append, List.length_take, List.length_drop]
      omega
    · show ((s.backing.take i ++ (s.backing.drop (i + 1)).take (s.len - (i + 1)))
          ++ s.backing.drop (s.len - 1)).take (s.len - 1) = _
      rw [List.take_append_eq_append_take,
        List.take_of_length_le (by
          simp only [List.length_append, hlt1, hlt2]
          omega),
        show s.len - 1 - (s.backing.take i
            ++ (s.backing.drop (i + 1)).take (s.len - (i + 1))).length = 0 by
          simp only [List.length_append, hlt1, hlt2]
          omega,
        List.take_zero, List.append_nil, List.take_take,
        show i ⊓ s.len = i by omega, List.drop_take]
  · simp [goRemove, hc] at h

theorem listLoop_filter (fuel : Nat) :
    ∀ (s : GoSlice) (i : Nat) (s2 : GoSlice),
      s.len ≤ s.backing.length →
      listLoop s i fuel = some s2 →
      (s2.backing.take s2.len).filter (fun e => !e.isDir)
        = (s.backing.take s.len).filter (fun e => !e.isDir) := by
  induction fuel with
  | zero =>
    intro s i s2 hlen h
    cases h
    rfl
  | succ fuel ih =>
    intro s i s2 hlen h
    simp only [listLoop] at h
    by_cases hdir : (s.backing.getD i ⟨"", false⟩).isDir = true
    · rw [if_pos hdir] at h
      cases hgr : goRemove s i with
      | none => rw [hgr] at h; exact absurd h (by simp)
      | some s3 =>
        rw [hgr] at h
        obtain ⟨hi, hlen3, hslice⟩ := goRemove_slice hlen hgr
        have hfil := ih s3 (i + 1) s2 hlen3 h
        rw [hfil, hslice]
        have hilt : i < (s.backing.take s.len).length := by
          simp only [List.length_take]
          omega
        have hget : (s.backing.take s.len)[i] = s.backing.getD i ⟨"", false⟩ := by
          rw [List.getElem_take]
          exact (List.getD_eq_getElem s.backing ⟨"", false⟩ (by
            simp only [List.length_take] at hilt
            omega)).symm
        conv_rhs => rw [← List.take_append_drop i (s.backing.take s.len)]
        rw [List.drop_eq_getElem_cons hilt, List.filter_append, List.filter_append,
          List.filter_cons_of_neg (by simp only [hget, hdir]; simp)]
    · rw [if_neg hdir] at h
      exact ih s (i + 1) s2 hlen h

theorem listSFTPFiles_keeps_files {entries out : List Entry}
    (h : listSFTPFiles entries = some out) :
    out.filter (fun e => !e.isDir) = entries.filter (fun e => !e.isDir) := by
  unfold listSFTPFiles at h
  cases hl : listLoop ⟨entries, entries.length⟩ 0 entries.length with
  | none => rw [hl] at h; exact absurd h (by simp)
  | some s2 =>
    rw [hl] at h
    simp only [Option.map_some'] at h
    cases h
    have := listLoop_filter entries.length ⟨entries, entries.length⟩ 0 s2
      (le_refl entries.length) hl
    simpa [List.take_of_length_le (le_refl entries.length)] using this

namespace Remote

theorem runResult_archive_mono (eff : Eff) (fs : FS) (e : Entry)
    (he : e ∈ fs.archiveDir) : e ∈ (runResult eff fs).archiveDir := by
  unfold runResult
  cases h1 : listSFTPFiles fs.readDir with
  | none => exact he
  | some p =>
    cases h2 : listSFTPFiles fs.archiveDir with
    | none => exact he
    | some a => exact downloadFiles_archive_mono eff _ fs e he

theorem reachable_archive_mono {fs fs2 : FS} (h : Reachable fs fs2) (e : Entry)
    (he : e ∈ fs.archiveDir) : e ∈ fs2.archiveDir := by
  induction h with
  | refl fs => exact he
  | run eff h2 ih => exact runResult_archive_mono _ _ e (ih he)
  | newFiles more h2 ih => exact ih he

end Remote

/-- Claim C3: across any sequence of runs and arrivals of new pending
files, a file name present in the archive directory never appears in the diff
output computed by a later run. -/
theorem archived_name_never_rediffed :
    ∀ (fs fs2 : FS), Remote.Reachable fs fs2 →
      ∀ e : Entry, e ∈ fs.archiveDir → e.isDir = false →
        ∀ (p a : List Entry), listSFTPFiles fs2.readDir = some p →
          listSFTPFiles fs2.archiveDir = some a →
          e.name ∉ getDiffFileNames p a := by
  intro fs fs2 hreach e he hdir p a hp ha hmem
  have he2 : e ∈ fs2.archiveDir := Remote.reachable_archive_mono hreach e he
  have hfil : e ∈ a.filter fun x => !x.isDir := by
    rw [listSFTPFiles_keeps_files ha]
    exact List.mem_filter.mpr ⟨he2, by simp [hdir]⟩
  have hea : e ∈ a := (List.mem_filter.mp hfil).1
  have hname : e.name ∈ a.map Entry.name := List.mem_map_of_mem Entry.name hea
  exact ((mem_getDiff p a e.name).mp hmem).2 hname

theorem archived_name_never_rediffed_witness :
    "x.csv" ∉ getDiffFileNames [⟨"x.csv", false⟩, ⟨"y.csv", false⟩] [⟨"x.csv", false⟩] :=
  archived_name_never_rediffed
    ⟨[⟨"x.csv", false⟩, ⟨"y.csv", false⟩], [⟨"x.csv", false⟩], []⟩
    ⟨[⟨"x.csv", false⟩, ⟨"y.csv", false⟩], [⟨"x.csv", false⟩], []⟩
    (Remote.Reachable.refl _) ⟨"x.csv", false⟩ (by decide) rfl
    [⟨"x.csv", false⟩, ⟨"y.csv", false⟩] [⟨"x.csv", false⟩] (by decide) (by decide)

namespace Remote

theorem downloadFiles_ok_head (eff : Eff) (rest : List String) {m : String} (fs : FS)
    (hm : okName eff m) :
    downloadFiles eff (m :: rest) fs
      = ((downloadFiles eff rest (stepOk m fs)).1,
          (downloadFiles eff rest (stepOk m fs)).2.1,
          Event.download m :: Event.rename m :: (downloadFiles eff rest (stepOk m fs)).2.2) := by
  have hd := downloadRemoteFile_of_ok eff m fs hm.1 hm.2.1 hm.2.2.1
  have ha := archiveRemoteFile_of_ok eff m
    ({ fs with localDir := m :: fs.localDir }) hm.2.2.2
  have := downloadFiles_cons_ok hd ha rest
  rw [this]
  rfl

theorem downloadFiles_ok_prefix (eff : Eff) (pre : List String) (rest : List String) :
    ∀ fs : FS, (∀ n ∈ pre, okName eff n) →
      downloadFiles eff (pre ++ rest) fs
        = ((downloadFiles eff rest (okState pre fs)).1,
            (downloadFiles eff rest (okState pre fs)).2.1,
            okTrace pre ++ (downloadFiles eff rest (okState pre fs)).2.2) := by
  induction pre with
  | nil => intro fs _; simp [okState, okTrace]
  | cons m pre2 ih =>
    intro fs hpre
    have hm : okName eff m := hpre m (by simp)
    rw [List.cons_append, downloadFiles_ok_head eff (pre2 ++ rest) fs hm,
      ih (stepOk m fs) (fun n hn => hpre n (by simp [hn]))]
    simp [okState, okTrace]

end Remote

theorem okState_readDir_mem (pre : List String) :
    ∀ (fs : FS) (e : Entry), e ∈ fs.readDir → e.name ∉ pre →
      e ∈ (okState pre fs).readDir := by
  induction pre with
  | nil => intro fs e he _; exact he
  | cons m pre2 ih =>
    intro fs e he hnp
    refine ih (stepOk m fs) e ?_ (fun hc => hnp (by simp [hc]))
    simp only [stepOk, List.mem_filter]
    refine ⟨he, ?_⟩
    simp only [Bool.not_eq_true']
    simpa using fun hc => hnp (by simp [hc])

theorem okState_archive_to (pre : List String) :
    ∀ (fs : FS) (e : Entry), e ∈ (okState pre fs).archiveDir →
      e ∈ fs.archiveDir ∨ e.name ∈ pre := by
  induction pre with
  | nil => intro fs e he; exact Or.inl he
  | cons m pre2 ih =>
    intro fs e he
    rcases ih (stepOk m fs) e he with h | h
    · simp only [stepOk, List.mem_append, List.mem_filter] at h
      rcases h with h | h
      · exact Or.inl h
      · have hem : e.name = m := by simpa using h.2
        exact Or.inr (by simp [hem])
    · exact Or.inr (by simp [h])

theorem okState_archive_mono (pre : List String) :
    ∀ (fs : FS) (e : Entry), e ∈ fs.archiveDir → e ∈ (okState pre fs).archiveDir := by
  induction pre with
  | nil => intro fs e he; exact he
  | cons m pre2 ih =>
    intro fs e he
    exact ih (stepOk m fs) e (by simp [stepOk, List.mem_append, he])

theorem okState_names_archived (pre : List String) :
    ∀ fs : FS, pre.Nodup → (∀ n ∈ pre, n ∈ fs.readDir.map Entry.name) →
      ∀ n ∈ pre, n ∈ (okState pre fs).archiveDir.map Entry.name := by
  induction pre with
  | nil => intro fs _ _ n hn; simp at hn
  | cons m pre2 ih =>
    intro fs hnd hread n hn
    rcases List.mem_cons.mp hn with rfl | hn2
    · rcases List.mem_map.mp (hread n (by simp)) with ⟨e, he, hne⟩
      have harc : e ∈ (stepOk n fs).archiveDir := by
        simp only [stepOk, List.mem_append, List.mem_filter]
        exact Or.inr ⟨he, by simp [hne]⟩
      exact List.mem_map.mpr ⟨e, okState_archive_mono pre2 (stepOk n fs) e harc, hne⟩
    · have hmne : m ∉ pre2 := (List.nodup_cons.mp hnd).1
      refine ih (stepOk m fs) (List.nodup_cons.mp hnd).2 ?_ n hn2
      intro x hx
      rcases List.mem_map.mp (hread x (by simp [hx])) with ⟨e, he, hne⟩
      refine List.mem_map.mpr ⟨e, ?_, hne⟩
      simp only [stepOk, List.mem_filter]
      refine ⟨he, ?_⟩
      have hxm : x ≠ m := fun hc => hmne (hc ▸ hx)
      simp only [Bool.not_eq_true']
      simp [hne, hxm]

theorem okState_local_mono (pre : List String) :
    ∀ (fs : FS) (x : String), x ∈ fs.localDir → x ∈ (okState pre fs).localDir := by
  induction pre with
  | nil => exact fun fs x hx => hx
  | cons m pre2 ih =>
    intro fs x hx
    exact ih (stepOk m fs) x (by simp [stepOk, hx])

theorem okState_local_self (pre : List String) :
    ∀ (fs : FS) (n : String), n ∈ pre → n ∈ (okState pre fs).localDir := by
  induction pre with
  | nil => intro fs n hn; simp at hn
  | cons m pre2 ih =>
    intro fs n hn
    rcases List.mem_cons.mp hn with rfl | hn2
    · exact okState_local_mono pre2 (stepOk n fs) n (by simp [stepOk])
    · exact ih (stepOk m fs) n hn2

theorem stepError_some_of_not_ok (eff : Eff) (n : String) (h : ¬ okName eff n) :
    stepError eff n ≠ none := by
  intro hn
  apply h
  by_cases ho : eff.openFails n = true
  · simp [stepError, ho] at hn
  · by_cases hc : eff.createFails n = true
    · simp [stepError, ho, hc] at hn
    · by_cases hy : eff.copyFails n = true
      · simp [stepError, ho, hc, hy] at hn
      · by_cases hr : eff.renameFails n = true
        · simp [stepError, ho, hc, hy, hr] at hn
        · exact ⟨by simpa using ho, by simpa using hc, by simpa using hy,
            by simpa using hr⟩

theorem stepError_downloadErr (eff : Eff) (n : String)
    (h : eff.openFails n = true ∨ eff.createFails n = true ∨ eff.copyFails n = true) :
    ∃ msg : String, stepError eff n = some (RunError.downloadErr msg) := by
  by_cases ho : eff.openFails n = true
  · exact ⟨("Unable to open remote file"), by simp [stepError, ho]⟩
  · by_cases hc : eff.createFails n = true
    · exact ⟨("Unable to open local file"), by simp [stepError, ho, hc]⟩
    · have hy : eff.copyFails n = true := by
        rcases h with h | h | h
        · exact absurd h ho
        · exact absurd h hc
        · exact h
      exact ⟨("Unable to copy remote file"), by simp [stepError, ho, hc, hy]⟩

theorem downloadFiles_fail_head (eff : Eff) (b : String) (post : List String) (fs : FS)
    (hfail : ¬ okName eff b) :
    Remote.downloadFiles eff (b :: post) fs = Remote.downloadFiles eff [b] fs
    ∧ (Remote.downloadFiles eff (b :: post) fs).1 = stepError eff b
    ∧ (Remote.downloadFiles eff (b :: post) fs).2.1.archiveDir = fs.archiveDir
    ∧ (∀ x ∈ fs.localDir, x ∈ (Remote.downloadFiles eff (b :: post) fs).2.1.localDir) := by
  by_cases ho : eff.openFails b = true
  · have hd : Remote.downloadRemoteFile eff b fs
        = (some (RunError.downloadErr ("Unable to open remote file")), fs) := by
      simp [Remote.downloadRemoteFile, ho]
    rw [Remote.downloadFiles_cons_dfail hd post, Remote.downloadFiles_cons_dfail hd []]
    exact ⟨rfl, by simp [stepError, ho], rfl, fun x hx => hx⟩
  · by_cases hc : eff.createFails b = true
    · have hd : Remote.downloadRemoteFile eff b fs
          = (some (RunError.downloadErr ("Unable to open local file")), fs) := by
        simp [Remote.downloadRemoteFile, ho, hc]
      rw [Remote.downloadFiles_cons_dfail hd post, Remote.downloadFiles_cons_dfail hd []]
      exact ⟨rfl, by simp [stepError, ho, hc], rfl, fun x hx => hx⟩
    · by_cases hy : eff.copyFails b = true
      · have hd : Remote.downloadRemoteFile eff b fs
            = (some (RunError.downloadErr ("Unable to copy remote file")),
                { fs with localDir := b :: fs.localDir }) := by
          simp [Remote.downloadRemoteFile, ho, hc, hy]
        rw [Remote.downloadFiles_cons_dfail hd post, Remote.downloadFiles_cons_dfail hd []]
        exact ⟨rfl, by simp [stepError, ho, hc, hy], rfl, fun x hx => by simp [hx]⟩
      · by_cases hr : eff.renameFails b = true
        · have hd := Remote.downloadRemoteFile_of_ok eff b fs
            (by simpa using ho) (by simpa using hc) (by simpa using hy)
          have ha := Remote.archiveRemoteFile_of_fail eff b
            ({ fs with localDir := b :: fs.localDir }) hr
          rw [Remote.downloadFiles_cons_afail hd ha post,
            Remote.downloadFiles_cons_afail hd ha []]
          exact ⟨rfl, by simp [stepError, ho, hc, hy, hr], rfl, fun x hx => by simp [hx]⟩
        · exact absurd ⟨by simpa using ho, by simpa using hc, by simpa using hy,
            by simpa using hr⟩ hfail

/-- Claim C5: after an all-successful prefix, the first failing name aborts
the loop at once: the run equals the run without the later names, so those
are never attempted, and that name's own error is surfaced — a DownloadError
whenever one of its download steps failed — while the prefix names are not
rolled back (they stay archived and downloaded). In particular, when only the
archive rename of b fails, the surfaced error is the ArchiveError and b stays
in the pending listing and in the next run's diff. -/
theorem first_failure_aborts :
    ∀ (eff : Eff) (pre : List String) (b : String) (post : List String) (fs : FS),
      (∀ n ∈ pre, okName eff n) →
      ¬ okName eff b →
      pre.Nodup →
      (∀ n ∈ pre, n ∈ fs.readDir.map Entry.name) →
      (Remote.downloadFiles eff (pre ++ b :: post) fs).1 = stepError eff b
      ∧ stepError eff b ≠ none
      ∧ Remote.downloadFiles eff (pre ++ b :: post) fs
          = Remote.downloadFiles eff (pre ++ [b]) fs
      ∧ (∀ n ∈ pre,
          n ∈ (Remote.downloadFiles eff (pre ++ b :: post) fs).2.1.archiveDir.map Entry.name
          ∧ n ∈ (Remote.downloadFiles eff (pre ++ b :: post) fs).2.1.localDir)
      ∧ ((eff.openFails b = true ∨ eff.createFails b = true ∨ eff.copyFails b = true) →
          ∃ msg : String,
            (Remote.downloadFiles eff (pre ++ b :: post) fs).1
              = some (RunError.downloadErr msg))
      ∧ (eff.renameFails b = true →
          eff.openFails b = false → eff.createFails b = false → eff.copyFails b = false →
          b ∈ fs.readDir.map Entry.name → b ∉ pre → b ∉ fs.archiveDir.map Entry.name →
          (Remote.downloadFiles eff (pre ++ b :: post) fs).1
              = some (RunError.archiveErr ("Unable to move remote file"))
          ∧ b ∈ (Remote.downloadFiles eff (pre ++ b :: post) fs).2.1.readDir.map Entry.name
          ∧ b ∈ getDiffFileNames
              (Remote.downloadFiles eff (pre ++ b :: post) fs).2.1.readDir
              (Remote.downloadFiles eff (pre ++ b :: post) fs).2.1.archiveDir) := by
  intro eff pre b post fs hpre hfail hnd hpreread
  have hofx := Remote.downloadFiles_ok_prefix eff pre (b :: post) fs hpre
  have hofy := Remote.downloadFiles_ok_prefix eff pre [b] fs hpre
  have hfh := downloadFiles_fail_head eff b post (okState pre fs) hfail
  have herr : (Remote.downloadFiles eff (pre ++ b :: post) fs).1 = stepError eff b := by
    rw [hofx]
    exact hfh.2.1
  refine ⟨herr, stepError_some_of_not_ok eff b hfail, ?_, ?_, ?_, ?_⟩
  · rw [hofx, hofy, hfh.1]
  · intro n hn
    constructor
    · rw [hofx]
      show n ∈ (Remote.downloadFiles eff (b :: post)
          (okState pre fs)).2.1.archiveDir.map Entry.name
      rw [hfh.2.2.1]
      exact okState_names_archived pre fs hnd hpreread n hn
    · rw [hofx]
      show n ∈ (Remote.downloadFiles eff (b :: post) (okState pre fs)).2.1.localDir
      exact hfh.2.2.2 n (okState_local_self pre fs n hn)
  · intro hdl
    rcases stepError_downloadErr eff b hdl with ⟨msg, hmsg⟩
    exact ⟨msg, by rw [herr, hmsg]⟩
  · intro hbr hbo hbc hby hbread hbpre hbarch
    have hd := Remote.downloadRemoteFile_of_ok eff b (okState pre fs) hbo hbc hby
    have ha := Remote.archiveRemoteFile_of_fail eff b
      ({ okState pre fs with localDir := b :: (okState pre fs).localDir }) hbr
    have hstep1 : Remote.downloadFiles eff (b :: post) (okState pre fs)
        = (some (RunError.archiveErr ("Unable to move remote file")),
            { okState pre fs with localDir := b :: (okState pre fs).localDir },
            [Event.download b, Event.rename b]) :=
      Remote.downloadFiles_cons_afail hd ha post
    have hmain : Remote.downloadFiles eff (pre ++ b :: post) fs
        = (some (RunError.archiveErr ("Unable to move remote file")),
            { okState pre fs with localDir := b :: (okState pre fs).localDir },
            okTrace pre ++ [Event.download b, Event.rename b]) := by
      rw [hofx, hstep1]
    rcases List.mem_map.mp hbread with ⟨eb, heb, hebn⟩
    have hebF : eb ∈ (okState pre fs).readDir :=
      okState_readDir_mem pre fs eb heb (fun hc => hbpre (hebn ▸ hc))
    have hnotarch : b ∉ (okState pre fs).archiveDir.map Entry.name := by
      intro hmem
      rcases List.mem_map.mp hmem with ⟨e, he, hen⟩
      rcases okState_archive_to pre fs e he with h | h
      · exact hbarch (List.mem_map.mpr ⟨e, h, hen⟩)
      · exact hbpre (hen ▸ h)
    refine ⟨by rw [hmain], ?_, ?_⟩
    · rw [hmain]
      exact List.mem_map.mpr ⟨eb, hebF, hebn⟩
    · rw [hmain]
      exact (mem_getDiff _ _ b).mpr ⟨⟨eb, hebF, hebn⟩, hnotarch⟩

theorem first_failure_aborts_witness :
    ((Remote.downloadFiles effArchiveFailB (["a.csv"] ++ "b.csv" :: ["c.csv"]) fsABC).1
        = some (RunError.archiveErr ("Unable to move remote file"))
      ∧ "b.csv" ∈ getDiffFileNames
          (Remote.downloadFiles effArchiveFailB
            (["a.csv"] ++ "b.csv" :: ["c.csv"]) fsABC).2.1.readDir
          (Remote.downloadFiles effArchiveFailB
            (["a.csv"] ++ "b.csv" :: ["c.csv"]) fsABC).2.1.archiveDir)
    ∧ ∃ msg : String,
        (Remote.downloadFiles effOpenFail ([] ++ "a.csv" :: ["c.csv"]) fsOne).1
          = some (RunError.downloadErr msg) := by
  refine ⟨?_, ?_⟩
  · have h := (first_failure_aborts effArchiveFailB [("a.csv")] ("b.csv") [("c.csv")] fsABC
      (by decide) (by decide) (by decide) (by decide)).2.2.2.2.2
      (by decide) rfl rfl rfl (by decide) (by decide) (by decide)
    exact ⟨h.1, h.2.2⟩
  · exact (first_failure_aborts effOpenFail [] ("a.csv") [("c.csv")] fsOne
      (by simp) (by decide) (by decide) (by simp)).2.2.2.2.1 (Or.inl rfl)

/-- Claim C1, failing run: on the listing d1(dir), d2(dir), f(file), the
lister returns d2 and f — the directory d2 slid into the slot vacated by the
removal of d1 and survives the filter, so the result is not the list of
non-directory entries. -/
theorem listSFTPFiles_adjacent_dirs_bug :
    listSFTPFiles [⟨"d1", true⟩, ⟨"d2", true⟩, ⟨"f", false⟩]
        = some [⟨"d2", true⟩, ⟨"f", false⟩]
      ∧ (⟨"d2", true⟩ : Entry).isDir = true := by
  exact ⟨rfl, rfl⟩

/-- Claim C6, failing run: when the remote open fails, the gosftpsync.go
download helper terminates the process inside the helper instead of returning
the error, while the other variant's helper returns it as a value. -/
theorem downloadFile_fatal_in_helper :
    LocalArch.downloadFile effOpenFail ("a.csv") fsOne
        = DLOutcome.fatalExit ("Unable to open remote file") fsOne
      ∧ Remote.downloadRemoteFile effOpenFail ("a.csv") fsOne
        = (some (RunError.downloadErr ("Unable to open remote file")), fsOne) := by
  exact ⟨rfl, rfl⟩

theorem localArch_downloadFiles_frame (eff : Eff) (files : List String) :
    ∀ fs : FS, (LocalArch.downloadFiles eff files fs).state.readDir = fs.readDir
      ∧ (LocalArch.downloadFiles eff files fs).state.archiveDir = fs.archiveDir := by
  induction files with
  | nil => intro fs; exact ⟨rfl, rfl⟩
  | cons n rest ih =>
    intro fs
    by_cases ho : eff.openFails n = true
    · simp [LocalArch.downloadFiles, LocalArch.downloadFile, ho, DLOutcome.state]
    · by_cases hc : eff.createFails n = true
      · simp [LocalArch.downloadFiles, LocalArch.downloadFile, ho, hc, DLOutcome.state]
      · by_cases hy : eff.copyFails n = true
        · simp [LocalArch.downloadFiles, LocalArch.downloadFile, ho, hc, hy, DLOutcome.state]
        · have hstep : LocalArch.downloadFiles eff (n :: rest) fs
              = LocalArch.downloadFiles eff rest
                  { fs with localDir := n :: fs.localDir } := by
            simp [LocalArch.downloadFiles, LocalArch.downloadFile, ho, hc, hy]
          rw [hstep]
          exact ih { fs with localDir := n :: fs.localDir }

/-- Claim C10: the local-archive variant's process loop performs no remote
rename — the remote pending and archive listings are unchanged whatever the
outcome, so every processed file remains in the remote pending directory. -/
theorem localArch_no_remote_rename :
    ∀ (eff : Eff) (files : List String) (fs : FS),
      (LocalArch.downloadFiles eff files fs).state.readDir = fs.readDir
      ∧ (LocalArch.downloadFiles eff files fs).state.archiveDir = fs.archiveDir
      ∧ ∀ n ∈ files, n ∈ fs.readDir.map Entry.name →
          n ∈ (LocalArch.downloadFiles eff files fs).state.readDir.map Entry.name := by
  intro eff files fs
  refine ⟨(localArch_downloadFiles_frame eff files fs).1,
    (localArch_downloadFiles_frame eff files fs).2, ?_⟩
  intro n _ hn
  rw [(localArch_downloadFiles_frame eff files fs).1]
  exact hn
